import Mathlib

/-!
Verification of the queryable composition, batching and OData parsing core of
the pnpjs client library, as described by its design specification.  TypeScript
sources are shallowly embedded: plain functions become Lean functions, JSON
objects become association lists, thrown errors become `Except`, and the
mutable queryable/batch state is made explicit.  Parts of the core that are
referenced from the sources at hand but whose implementation files are not
among them (the `combine`/`assign` helpers of `@pnp/common`, `extractWebUrl`,
`escapeQueryStrValue`, the `Queryable`/`Batch` classes) are modelled from the
specification and marked as such in their doc comments.
-/

namespace Pnp

/-! ## Client side pages: `getNextOrder` and `reindex` (clientsidepages.ts) -/

/-- Canvas tree node as consumed by `reindex`: an order value plus optional
`columns` and `controls` child collections (`hasOwnProperty` presence is
`Option.isSome`). -/
inductive CanvasItem where
  | mk (order : Int) (columns : Option (List CanvasItem)) (controls : Option (List CanvasItem))

/-- The `order` field of a canvas item. -/
def CanvasItem.order : CanvasItem → Int
  | .mk o _ _ => o

/-- The optional `columns` field of a canvas item. -/
def CanvasItem.columns : CanvasItem → Option (List CanvasItem)
  | .mk _ c _ => c

/-- The optional `controls` field of a canvas item. -/
def CanvasItem.controls : CanvasItem → Option (List CanvasItem)
  | .mk _ _ c => c

/-- Maximum of a nonempty list of orders, `Math.max.apply(null, ...)`;
the empty case is unreachable in `getNextOrder` (guarded by the length test). -/
def maxOrder : List Int → Int
  | [] => 0
  | [x] => x
  | x :: y :: xs => max x (maxOrder (y :: xs))

/-- `getNextOrder(collection)` from clientsidepages.ts: `1` for an empty
collection, otherwise one more than the maximum existing order. -/
def getNextOrder (collection : List CanvasItem) : Int :=
  if collection.length < 1 then 1
  else maxOrder (collection.map CanvasItem.order) + 1

mutual

/-- One step of `reindex`: sets `collection[i].order = i + 1` and recurses into
`columns` when that key is present, otherwise into `controls` when present
(the source uses `if (hOP(collection[i], "columns")) ... else if
(hOP(collection[i], "controls")) ...`). -/
def reindexItem (i : Nat) : CanvasItem → CanvasItem
  | .mk _ (some cols) ctrls => .mk ((i : Int) + 1) (some (reindexFrom 0 cols)) ctrls
  | .mk _ none (some ctrls) => .mk ((i : Int) + 1) none (some (reindexFrom 0 ctrls))
  | .mk _ none none => .mk ((i : Int) + 1) none none

/-- The loop of `reindex`, carrying the current index. -/
def reindexFrom (i : Nat) : List CanvasItem → List CanvasItem
  | [] => []
  | x :: xs => reindexItem i x :: reindexFrom (i + 1) xs

end

/-- `reindex(collection)` from clientsidepages.ts. -/
def reindex (collection : List CanvasItem) : List CanvasItem :=
  reindexFrom 0 collection

/-! ## File comment-taking operations (files/types.ts) -/

/-- Check-in types, `enum CheckinType { Minor = 0, Major = 1, Overwrite = 2 }`. -/
inductive CheckinType where
  | Minor
  | Major
  | Overwrite
deriving DecidableEq, Repr

/-- Numeric value of a check-in type as interpolated into the URL. -/
def CheckinType.toNat : CheckinType → Nat
  | .Minor => 0
  | .Major => 1
  | .Overwrite => 2

/-- The single quote character, written via its code point. -/
def quoteChar : Char := Char.ofNat 39

/-- A string holding one single quote. -/
def squo : String := String.mk [quoteChar]

/-- Modelled from the spec: `escapeQueryStrValue` (imported from
`utils/escapeSingleQuote`, whose file is not among the sources) escapes an
OData string literal for inclusion between single quotes; per §4.1 the quotes
delimiting OData string literals stay literal, and OData represents an
embedded quote by doubling it, which is what the module name describes. -/
def escapeQueryStrValue (value : String) : String :=
  String.mk (value.toList.foldr
    (fun c acc => if c == quoteChar then quoteChar :: quoteChar :: acc else c :: acc) [])

/-- An HTTP request produced by one of the file operations: the method and the
path segment cloned onto the file's URL. -/
structure SPRequest where
  method : String
  path : String
deriving DecidableEq, Repr

/-- The error message thrown for over-long comments. -/
def maxCommentMsg : String := "The maximum comment length is 1023 characters."

/-- `_File.checkin(comment, checkinType)`: throws when the comment exceeds 1023
characters, otherwise issues one POST to `checkin(comment='...',checkintype=n)`. -/
def checkin (comment : String) (checkinType : CheckinType) : Except String SPRequest :=
  if comment.length > 1023 then .error maxCommentMsg
  else .ok ⟨"POST", "checkin(comment=" ++ squo ++ escapeQueryStrValue comment ++ squo
      ++ ",checkintype=" ++ toString checkinType.toNat ++ ")"⟩

/-- `_File.deny(comment)`: throws when the comment exceeds 1023 characters,
otherwise issues one POST to `deny(comment='...')`. -/
def deny (comment : String) : Except String SPRequest :=
  if comment.length > 1023 then .error maxCommentMsg
  else .ok ⟨"POST", "deny(comment=" ++ squo ++ escapeQueryStrValue comment ++ squo ++ ")"⟩

/-- `_File.publish(comment)`: throws when the comment exceeds 1023 characters,
otherwise issues one POST to `publish(comment='...')`. -/
def publish (comment : String) : Except String SPRequest :=
  if comment.length > 1023 then .error maxCommentMsg
  else .ok ⟨"POST", "publish(comment=" ++ squo ++ escapeQueryStrValue comment ++ squo ++ ")"⟩

/-- `_File.unpublish(comment)`: throws when the comment exceeds 1023 characters,
otherwise issues one POST to `unpublish(comment='...')`. -/
def unpublish (comment : String) : Except String SPRequest :=
  if comment.length > 1023 then .error maxCommentMsg
  else .ok ⟨"POST", "unpublish(comment=" ++ squo ++ escapeQueryStrValue comment ++ squo ++ ")"⟩

/-! ## Chunked upload (`_File.setContentChunked`, files/types.ts)

The file content is a `List α`; `Blob.slice(s, e)` is the clamped sublist.
The spec of `startUpload`/`continueUpload` (their doc comments in the source)
is that each returns the running total of uploaded bytes; the promise chain
feeds that total back as the next `pointer`.  The model records the fragments
each call would receive under that hypothesis. -/

/-- `Blob.slice(s, e)`: the clamped slice between two offsets. -/
def blobSlice (file : List α) (s e : Nat) : List α :=
  (file.drop s).take (e - s)

/-- `blockCount` as computed by `setContentChunked`:
`parseInt((file.size / chunkSize).toString(), 10) + ((file.size % chunkSize === 0) ? 1 : 0)`. -/
def blockCount (size chunkSize : Nat) : Nat :=
  size / chunkSize + (if size % chunkSize == 0 then 1 else 0)

/-- The `for (let i = 2; i < blockCount; i++)` chain of `continueUpload` calls:
given the current pointer (the running total returned by the previous call)
and the number of remaining iterations, returns the fragments passed to
`continueUpload` (`file.slice(pointer, pointer + chunkSize)`) together with
the final pointer. -/
def continueChain (file : List α) (chunkSize : Nat) : Nat → Nat → List (List α) × Nat
  | p, 0 => ([], p)
  | p, k + 1 =>
    let frag := blobSlice file p (p + chunkSize)
    let rest := continueChain file chunkSize (p + frag.length) k
    (frag :: rest.1, rest.2)

/-- All fragments uploaded by `setContentChunked(file, _, chunkSize)`: the
`startUpload` fragment `file.slice(0, chunkSize)`, the `continueUpload`
fragments, and the `finishUpload` fragment `file.slice(pointer)`. -/
def setContentChunkedFragments (file : List α) (chunkSize : Nat) : List (List α) :=
  let first := blobSlice file 0 chunkSize
  let mids := continueChain file chunkSize first.length (blockCount file.length chunkSize - 2)
  first :: mids.1 ++ [file.drop mids.2]

/-! ## OData entity parsing (`odataUrlFrom`, `SPODataEntityParserImpl`) -/

/-- JSON-ish values: strings and objects are the shapes `odataUrlFrom`
inspects (an object is an ordered list of own properties). -/
inductive JVal where
  | str (s : String)
  | obj (fields : List (String × JVal))

/-- A decoded JSON payload object: its ordered own properties. -/
abbrev Obj := List (String × JVal)

/-- Property access on an object: the value at the first occurrence of a key. -/
def olook : Obj → String → Option JVal
  | [], _ => none
  | kv :: rest, k => if kv.1 = k then some kv.2 else olook rest k

/-- `hasOwnProperty` (`hOP` from `@pnp/common`): key presence. -/
def hOP (o : Obj) (k : String) : Bool :=
  (olook o k).isSome

/-- Reads a field expected to hold a string; any other shape yields `""`
(such a value never compares equal to `"SP.Web"` and is what the string
coercion of a missing field degenerates to in the model). -/
def strField (o : Obj) (k : String) : String :=
  match olook o k with
  | some (.str s) => s
  | _ => ""

/-- `candidate.__metadata.uri`. -/
def metadataUri (o : Obj) : String :=
  match olook o "__metadata" with
  | some (.obj m) => strField m "uri"
  | _ => ""

/-- Drops every leading `/` of a string. -/
def dropLeadSlashes (s : String) : String :=
  String.mk (s.toList.dropWhile (· == '/'))

/-- Trims leading and trailing `/` of a URL part. -/
def trimSlashes (s : String) : String :=
  String.mk (((s.toList.dropWhile (· == '/')).reverse.dropWhile (· == '/')).reverse)

/-- Modelled from the spec: `combine` (`@pnp/common`, whose file is not among
the sources) joins URL parts; §4.1: "the resulting absolute URL is
`combine(parentUrl, pathSegment)` with duplicate slashes collapsed".  Empty
parts are skipped and each part is trimmed of leading/trailing slashes before
joining with a single `/`. -/
def combine (paths : List String) : String :=
  String.intercalate "/" (((paths.filter (· ≠ "")).map trimSlashes).filter (· ≠ ""))

/-- Helper for `extractWebUrl`: the characters before the first occurrence of
`_api`, or `none` when `_api` does not occur. -/
def beforeApi : List Char → Option (List Char)
  | [] => none
  | c :: rest =>
    if List.isPrefixOf ("_api".toList) (c :: rest) then some []
    else
      match beforeApi rest with
      | some pre => some (c :: pre)
      | none => none

/-- Modelled from the spec: `extractWebUrl` (`utils/extractweburl`, whose file
is not among the sources).  §4.2 recomputes the canonical URL of a
minimal-metadata payload as web-url + `_api` + editLink where the web url is
the prefix of the `odata.metadata` URL before its `_api` segment; modelled as
the substring before the first `_api`, or the input unchanged when absent. -/
def extractWebUrl (url : String) : String :=
  match beforeApi url.toList with
  | some pre => String.mk pre
  | none => url

/-- `odataUrlFrom(candidate)` from odata.ts: recomputes a resource URL from
the OData identity annotations, handling `SP.Web` payloads, minimal metadata
(`odata.metadata` + `odata.editLink`), bare `odata.editLink`, and verbose
(`__metadata.uri`); returns `""` (after logging a warning) when none match. -/
def odataUrlFrom (candidate : Obj) : String :=
  let parts : List String :=
    if hOP candidate "odata.type" && (strField candidate "odata.type" == "SP.Web") then
      if hOP candidate "odata.editLink" then
        [strField candidate "odata.editLink"]
      else if hOP candidate "__metadata" then
        [metadataUri candidate]
      else []
    else
      if hOP candidate "odata.metadata" && hOP candidate "odata.editLink" then
        [extractWebUrl (strField candidate "odata.metadata"), "_api",
          strField candidate "odata.editLink"]
      else if hOP candidate "odata.editLink" then
        ["_api", strField candidate "odata.editLink"]
      else if hOP candidate "__metadata" then
        [metadataUri candidate]
      else []
  if parts.length < 1 then "" else combine parts

/-- Modelled from the spec: `assign` (`Object.assign` semantics, re-exported by
`@pnp/common`, whose file is not among the sources); §4.2 "shallow-merge the
JSON properties onto that node".  Keys already on the target are overwritten
in place, new keys are appended in source order (JS property order). -/
def assign (target source : Obj) : Obj :=
  (target.map fun kv =>
    match olook source kv.1 with
    | some v => (kv.1, v)
    | none => kv)
  ++ source.filter (fun kv => !(hOP target kv.1))

/-- `SPODataEntityParserImpl.hydrate`: `assign(new this.factory(odataUrlFrom(d), null), d)`.
The factory is the constructor the parser was created with; it builds the
queryable node's own properties from the computed URL. -/
def hydrate (factory : String → Obj) (d : Obj) : Obj :=
  assign (factory (odataUrlFrom d)) d

/-- `SPODataEntityParserImpl.parse`: after the base `ODataParser` decodes the
body into `d`, the result is the same merge the hydrate path performs. -/
def parseEntity (factory : String → Obj) (d : Obj) : Obj :=
  assign (factory (odataUrlFrom d)) d

/-- The OData identity keys `odataUrlFrom` consults. -/
def odataKeys : List String :=
  ["odata.type", "odata.editLink", "__metadata", "odata.metadata"]

/-! ## URL composition with OData literals (`SiteGroups.getByName`) -/

/-- The `%` character, written via its code point. -/
def percentChar : Char := Char.ofNat 37

/-- The path segment built by `SiteGroups.getByName(groupName)`:
the template literal `getByName('${groupName}')` — the group name is
interpolated verbatim, with no escaping of any kind. -/
def getByNamePath (groupName : String) : String :=
  "getByName(" ++ squo ++ groupName ++ squo ++ ")"

/-! ## Queryable cloning (spec-modelled)

The `Queryable`/`SharePointQueryable` classes implementing `clone` and the
query map are not among the sources (only their callers, e.g.
`_SiteUsers.removeByLoginName`, are).  Modelled from the spec, §3 and §4.1:
a node is `{ url, query: ordered mapping, parentUrl }`; `clone` yields a child
whose url is `combine(parentUrl, pathSegment)` and whose query is a SHALLOW
COPY of the parent's.  To make "mutating the child's query never affects the
parent" expressible, the heap of live nodes is explicit: a store indexed by
node id, where `clone` allocates a fresh entry with a copied query map and
`query.set` mutates exactly one entry. -/

/-- A queryable node's state. -/
structure QNode where
  url : String
  parentUrl : String
  query : List (String × String)
deriving DecidableEq, Repr

/-- `Map.set` on the ordered query mapping: overwrite an existing key in
place, else append. -/
def mapSet (q : List (String × String)) (k v : String) : List (String × String) :=
  if q.any (fun kv => kv.1 == k) then
    q.map fun kv => if kv.1 = k then (k, v) else kv
  else q ++ [(k, v)]

/-- Modelled from the spec: `clone(factory, pathSegment, inheritQuery)` (§4.1)
allocates a child node whose url appends the path segment and whose query map
is a shallow copy of the parent's (or empty when not inherited). Returns the
updated store and the child's id. -/
def cloneNode (store : List QNode) (parent : Nat) (pathSegment : String)
    (inheritQuery : Bool) : List QNode × Nat :=
  match store.get? parent with
  | none => (store, store.length)
  | some p =>
    (store ++ [⟨combine [p.url, pathSegment], p.url,
        if inheritQuery then p.query else []⟩], store.length)

/-- Modelled from the spec: `node.query.set(k, v)` mutates the query map of
exactly the addressed node. -/
def setQueryParam (store : List QNode) (id : Nat) (k v : String) : List QNode :=
  match store.get? id with
  | none => store
  | some n => store.set id { n with query := mapSet n.query k v }

/-! ## Batch coordinator (spec-modelled)

The `Batch` class is not among the sources (only the ordering tests and the
`@pnp/odata` index re-exporting `./batch` are).  Modelled from the spec, §4.4
and §5: a batch is a state machine `Open → Executing → Completed/Failed`;
requests registered while `Open` are kept in registration order; `execute`
serializes them, dispatches once, demultiplexes the response fragments
strictly by position, resolves each pending promise in registration order and
resolves the batch's own completion promise after every member callback;
registering on or re-executing a spent batch throws `BatchStateError`. -/

/-- Batch lifecycle states (§4.4). -/
inductive BatchState where
  | Open
  | Executing
  | Completed
  | Failed
deriving DecidableEq, Repr

/-- Errors of the batch state machine (§7). -/
inductive BatchError where
  | batchStateError
deriving DecidableEq, Repr

/-- A batch: its lifecycle state and the registered requests in order. -/
structure Batch (α : Type) where
  state : BatchState
  requests : List α
deriving DecidableEq, Repr

/-- Modelled from the spec: `inBatch(batch)` registration — permitted only
while the batch is `Open` (§5: "after `execute()` is invoked, no further
registration is permitted ... late registration must fail loudly"). -/
def inBatch (b : Batch α) (r : α) : Except BatchError (Batch α) :=
  if b.state = .Open then .ok { b with requests := b.requests ++ [r] }
  else .error .batchStateError

/-- Modelled from the spec: `execute()` — consumes an `Open` batch, moving it
to `Completed`; a second `execute()` on the spent batch is an error (§3:
"consumed exactly once by `execute()`"). -/
def executeBatch (b : Batch α) : Except BatchError (Batch α) :=
  if b.state = .Open then .ok { state := .Completed, requests := b.requests }
  else .error .batchStateError

/-- Observable callback events during batch execution: the settlement of the
i-th registered request's promise (with its parsed value), or the batch's own
completion promise resolving. -/
inductive BatchEvent (β : Type) where
  | resolved (index : Nat) (value : β)
  | completed
deriving DecidableEq, Repr

/-- The demultiplex-and-settle loop: response fragments are matched to pending
requests strictly by position; the i-th request's bound parser is applied to
the i-th fragment and its promise's callback is scheduled, in order. -/
def settleAll : Nat → List (ρ → β) → List ρ → List (BatchEvent β)
  | _, [], _ => []
  | _, _ :: _, [] => []
  | i, p :: ps, r :: rs => .resolved i (p r) :: settleAll (i + 1) ps rs

/-- Modelled from the spec: the trace of callbacks produced by `execute()` on
a batch whose registered requests carry the given parsers, once the multipart
response supplies one fragment per sub-request (§4.4 steps 4-5): every member
promise settles in registration order, then the completion promise resolves. -/
def executeTrace (parsers : List (ρ → β)) (responses : List ρ) : List (BatchEvent β) :=
  settleAll 0 parsers responses ++ [.completed]

/-! ## Theorems: canvas ordering (C10) -/

theorem le_maxOrder (l : List Int) (x : Int) (hx : x ∈ l) : x ≤ maxOrder l := by
  induction l with
  | nil => cases hx
  | cons a t ih =>
    cases t with
    | nil =>
      rcases List.mem_cons.mp hx with rfl | h
      · exact le_refl _
      · cases h
    | cons b t2 =>
      rcases List.mem_cons.mp hx with rfl | h
      · exact le_max_left _ _
      · exact le_trans (ih h) (le_max_right _ _)

theorem reindexFrom_length (l : List CanvasItem) : ∀ i, (reindexFrom i l).length = l.length := by
  induction l with
  | nil => intro i; rfl
  | cons x xs ih => intro i; simp [reindexFrom, ih]

theorem reindexItem_order (k : Nat) (x : CanvasItem) :
    (reindexItem k x).order = (k : Int) + 1 := by
  cases x with
  | mk o cols ctrls =>
    cases cols with
    | some cs => rfl
    | none => cases ctrls with
      | some ks => rfl
      | none => rfl

theorem reindexItem_eq_cols (i : Nat) (o : Int) (cs : List CanvasItem)
    (ct : Option (List CanvasItem)) :
    reindexItem i (.mk o (some cs) ct) = .mk ((i : Int) + 1) (some (reindexFrom 0 cs)) ct := rfl

theorem reindexItem_eq_ctrls (i : Nat) (o : Int) (ks : List CanvasItem) :
    reindexItem i (.mk o none (some ks)) = .mk ((i : Int) + 1) none (some (reindexFrom 0 ks)) := rfl

theorem reindexItem_eq_plain (i : Nat) (o : Int) :
    reindexItem i (.mk o none none) = .mk ((i : Int) + 1) none none := rfl

theorem reindexFrom_get (l : List CanvasItem) :
    ∀ (i j : Nat) (h : j < (reindexFrom i l).length) (h2 : j < l.length),
      (reindexFrom i l).get ⟨j, h⟩ = reindexItem (i + j) (l.get ⟨j, h2⟩) := by
  induction l with
  | nil => intro i j h h2; cases h2
  | cons x xs ih =>
    intro i j h h2
    cases j with
    | zero => rfl
    | succ j2 =>
      have hlt : j2 < (reindexFrom (i + 1) xs).length := by
        simpa [reindexFrom] using h
      have hlt2 : j2 < xs.length := Nat.lt_of_succ_lt_succ h2
      have := ih (i + 1) j2 hlt hlt2
      simpa [reindexFrom, Nat.add_assoc, Nat.add_comm 1 j2] using this

/-- C10 counterexample: `reindex` recurses into an element's `columns` *or
else* its `controls`, never both; on an item that carries both keys the
controls keep their stale order, so the claim's "element at index i of each
element's columns and controls has order exactly i + 1" fails: the single
control still has order 5, not 1. -/
theorem reindex_skips_controls_with_columns :
    (reindex [CanvasItem.mk 7 (some []) (some [CanvasItem.mk 5 none none])]).map
        (fun it => (it.order, it.controls.map (List.map CanvasItem.order)))
      = [((1 : Int), some [(5 : Int)])]
  ∧ (5 : Int) ≠ 0 + 1 := by
  exact ⟨rfl, by decide⟩

/-- C10 (amended): `getNextOrder` returns 1 on the empty collection and
otherwise one more than the maximum existing order — strictly greater than
every member's order; after `reindex` the element at index i has order i + 1,
and recursively so do the element's `columns`, or, when it has no `columns`
key, its `controls` (the source recurses into `columns` *else* `controls`,
not both). -/
theorem canvas_order_normalization (collection : List CanvasItem) :
    getNextOrder [] = 1
  ∧ (collection ≠ [] →
      getNextOrder collection = maxOrder (collection.map CanvasItem.order) + 1)
  ∧ (∀ x ∈ collection, x.order < getNextOrder collection)
  ∧ (∀ i (hi : i < (reindex collection).length),
      ((reindex collection).get ⟨i, hi⟩).order = (i : Int) + 1
    ∧ (∀ cs, ((reindex collection).get ⟨i, hi⟩).columns = some cs →
        ∀ j (hj : j < cs.length), (cs.get ⟨j, hj⟩).order = (j : Int) + 1)
    ∧ (((reindex collection).get ⟨i, hi⟩).columns = none →
        ∀ ks, ((reindex collection).get ⟨i, hi⟩).controls = some ks →
        ∀ j (hj : j < ks.length), (ks.get ⟨j, hj⟩).order = (j : Int) + 1)) := by
  refine ⟨rfl, ?_, ?_, ?_⟩
  · intro hne
    have : ¬ collection.length < 1 := by
      cases collection with
      | nil => exact absurd rfl hne
      | cons a t => simp
    simp [getNextOrder, this]
  · intro x hx
    have hne : ¬ collection.length < 1 := by
      cases collection with
      | nil => cases hx
      | cons a t => simp
    have hle : x.order ≤ maxOrder (collection.map CanvasItem.order) :=
      le_maxOrder _ _ (List.mem_map_of_mem _ hx)
    simp only [getNextOrder, hne, if_false]
    omega
  · intro i hi
    have hi2 : i < collection.length := by
      have := reindexFrom_length collection 0
      simp only [reindex] at hi
      omega
    have hget := reindexFrom_get collection 0 i (by simpa [reindex] using hi) hi2
    have hgetr : (reindex collection).get ⟨i, hi⟩
        = reindexItem i (collection.get ⟨i, hi2⟩) := by
      simpa [reindex] using hget
    refine ⟨?_, ?_, ?_⟩
    · rw [hgetr]; exact reindexItem_order i _
    · intro cs hcs j hj
      rw [hgetr] at hcs
      cases hx : collection.get ⟨i, hi2⟩ with
      | mk o cols ctrls =>
        rw [hx] at hcs
        cases cols with
        | some cs0 =>
          have hcs2 : cs = reindexFrom 0 cs0 := by
            have : (reindexItem i (CanvasItem.mk o (some cs0) ctrls)).columns
                = some (reindexFrom 0 cs0) := rfl
            rw [this] at hcs
            exact (Option.some_inj.mp hcs).symm
          subst hcs2
          have hj2 : j < cs0.length := by
            have := reindexFrom_length cs0 0
            omega
          have := reindexFrom_get cs0 0 j hj hj2
          rw [this]
          simpa using reindexItem_order j _
        | none =>
          cases ctrls with
          | some ks0 => rw [reindexItem_eq_ctrls] at hcs; simp [CanvasItem.columns] at hcs
          | none => rw [reindexItem_eq_plain] at hcs; simp [CanvasItem.columns] at hcs
    · intro hnone ks hks j hj
      rw [hgetr] at hnone hks
      cases hx : collection.get ⟨i, hi2⟩ with
      | mk o cols ctrls =>
        rw [hx] at hnone hks
        cases cols with
        | some cs0 => rw [reindexItem_eq_cols] at hnone; simp [CanvasItem.columns] at hnone
        | none =>
          cases ctrls with
          | some ks0 =>
            have hks2 : ks = reindexFrom 0 ks0 := by
              have : (reindexItem i (CanvasItem.mk o none (some ks0))).controls
                  = some (reindexFrom 0 ks0) := rfl
              rw [this] at hks
              exact (Option.some_inj.mp hks).symm
            subst hks2
            have hj2 : j < ks0.length := by
              have := reindexFrom_length ks0 0
              omega
            have := reindexFrom_get ks0 0 j hj hj2
            rw [this]
            simpa using reindexItem_order j _
          | none => rw [reindexItem_eq_plain] at hks; simp [CanvasItem.controls] at hks

/-- C10 witness: the amended normalization property evaluated on a concrete
two-element collection. -/
theorem canvas_order_normalization_witness :
    ([CanvasItem.mk 4 none none, CanvasItem.mk 2 none none] ≠ ([] : List CanvasItem))
  ∧ (∀ x ∈ [CanvasItem.mk 4 none none, CanvasItem.mk 2 none none],
      x.order < getNextOrder [CanvasItem.mk 4 none none, CanvasItem.mk 2 none none]) := by
  refine ⟨by simp, ?_⟩
  exact (canvas_order_normalization
    [CanvasItem.mk 4 none none, CanvasItem.mk 2 none none]).2.2.1

/-! ## Theorems: file comment-length guard (C8) -/

/-- C8: on every comment longer than 1023 characters `checkin`, `deny`,
`publish` and `unpublish` fail synchronously with the message "The maximum
comment length is 1023 characters." before any request exists; on every
comment of length at most 1023 each issues exactly one POST to its
endpoint. -/
theorem file_comment_length_guard (comment : String) (ct : CheckinType) :
    (1023 < comment.length →
      checkin comment ct = .error maxCommentMsg
    ∧ deny comment = .error maxCommentMsg
    ∧ publish comment = .error maxCommentMsg
    ∧ unpublish comment = .error maxCommentMsg)
  ∧ (comment.length ≤ 1023 →
      checkin comment ct = .ok ⟨"POST", "checkin(comment=" ++ squo
          ++ escapeQueryStrValue comment ++ squo ++ ",checkintype="
          ++ toString ct.toNat ++ ")"⟩
    ∧ deny comment = .ok ⟨"POST", "deny(comment=" ++ squo
          ++ escapeQueryStrValue comment ++ squo ++ ")"⟩
    ∧ publish comment = .ok ⟨"POST", "publish(comment=" ++ squo
          ++ escapeQueryStrValue comment ++ squo ++ ")"⟩
    ∧ unpublish comment = .ok ⟨"POST", "unpublish(comment=" ++ squo
          ++ escapeQueryStrValue comment ++ squo ++ ")"⟩) := by
  constructor
  · intro h
    refine ⟨?_, ?_, ?_, ?_⟩ <;>
      simp [checkin, deny, publish, unpublish, h]
  · intro h
    have h2 : ¬ comment.length > 1023 := by omega
    refine ⟨?_, ?_, ?_, ?_⟩ <;>
      simp [checkin, deny, publish, unpublish, h2]

/-- C8 witness: the guard evaluated at the empty comment. -/
theorem file_comment_length_guard_witness :
    "".length ≤ 1023
  ∧ checkin "" CheckinType.Major = .ok ⟨"POST", "checkin(comment=" ++ squo
      ++ escapeQueryStrValue "" ++ squo ++ ",checkintype="
      ++ toString CheckinType.Major.toNat ++ ")"⟩ :=
  ⟨by decide, ((file_comment_length_guard "" CheckinType.Major).2 (by decide)).1⟩

/-! ## Theorems: chunked upload coverage (C9) -/

theorem blobSlice_zero (file : List α) (c : Nat) : blobSlice file 0 c = file.take c := by
  simp [blobSlice]

theorem continueChain_covers (file : List α) (c : Nat) :
    ∀ (k p : Nat), p ≤ file.length →
      file.take p ++ (continueChain file c p k).1.flatten
          = file.take (continueChain file c p k).2
      ∧ (continueChain file c p k).2 ≤ file.length := by
  intro k
  induction k with
  | zero =>
    intro p hp
    exact ⟨by simp [continueChain], by simpa [continueChain] using hp⟩
  | succ k ih =>
    intro p hp
    have hfraglen : (blobSlice file p (p + c)).length = min c (file.length - p) := by
      simp [blobSlice]
    set p2 := p + (blobSlice file p (p + c)).length with hp2
    have hp2le : p2 ≤ file.length := by
      rw [hp2, hfraglen]
      omega
    have hstep : file.take p ++ blobSlice file p (p + c) = file.take p2 := by
      have htadd : file.take (p + c) = file.take p ++ (file.drop p).take c :=
        List.take_add file p c
      have hslice : blobSlice file p (p + c) = (file.drop p).take c := by
        simp [blobSlice]
      rw [hslice, ← htadd]
      rcases le_or_lt (p + c) file.length with hle | hlt
      · have : p2 = p + c := by rw [hp2, hfraglen]; omega
        rw [this]
      · have hall : file.take (p + c) = file := List.take_of_length_le (by omega)
        have hall2 : file.take p2 = file := by
          have : p2 = file.length := by rw [hp2, hfraglen]; omega
          rw [this]; simp
        rw [hall, hall2]
    obtain ⟨hrec, hrecle⟩ := ih p2 hp2le
    refine ⟨?_, ?_⟩
    · show file.take p ++ (blobSlice file p (p + c)
          :: (continueChain file c p2 k).1).flatten
        = file.take (continueChain file c p2 k).2
      rw [List.flatten_cons, ← List.append_assoc, hstep, hrec]
    · exact hrecle

/-- C9: under the hypothesis (stated in the upload methods' contracts) that
`startUpload`/`continueUpload` return the running total of uploaded bytes,
the fragments passed to `startUpload` (`slice(0, chunkSize)`), to the
intermediate `continueUpload` calls (`slice(pointer, pointer + chunkSize)`),
and to the final `finishUpload` (`slice(pointer)`) concatenate to exactly the
original file content, for every file size and every positive chunk size —
including exact-multiple and smaller-than-one-chunk files. -/
theorem setContentChunked_covers_file (file : List α) (chunkSize : Nat)
    (h : 0 < chunkSize) :
    (setContentChunkedFragments file chunkSize).flatten = file := by
  have hfirstle : (blobSlice file 0 chunkSize).length ≤ file.length := by
    rw [blobSlice_zero]
    simp
  obtain ⟨heq, hle⟩ := continueChain_covers file chunkSize
    (blockCount file.length chunkSize - 2) (blobSlice file 0 chunkSize).length hfirstle
  have htake : file.take (blobSlice file 0 chunkSize).length = blobSlice file 0 chunkSize := by
    rw [blobSlice_zero, List.length_take]
    rcases le_or_lt chunkSize file.length with hcle | hclt
    · rw [min_eq_left hcle]
    · rw [min_eq_right (by omega), List.take_of_length_le (by omega)]
      exact (List.take_of_length_le (by omega)).symm
  show (blobSlice file 0 chunkSize
      :: ((continueChain file chunkSize (blobSlice file 0 chunkSize).length
            (blockCount file.length chunkSize - 2)).1
          ++ [file.drop (continueChain file chunkSize (blobSlice file 0 chunkSize).length
            (blockCount file.length chunkSize - 2)).2])).flatten = file
  rw [List.flatten_cons, List.flatten_append]
  simp only [List.flatten_cons, List.flatten_nil, List.append_nil]
  rw [← List.append_assoc]
  nth_rewrite 1 [← htake]
  rw [heq]
  exact List.take_append_drop _ file

/-- C9 witness: a five-element file uploaded with chunk size two. -/
theorem setContentChunked_covers_file_witness :
    0 < 2
  ∧ (setContentChunkedFragments [1, 2, 3, 4, 5] 2).flatten = [1, 2, 3, 4, 5] :=
  ⟨by decide, setContentChunked_covers_file [1, 2, 3, 4, 5] 2 (by decide)⟩

/-! ## Theorems: OData identity handling (C2, C3, C4) -/

theorem olook_append (l₁ l₂ : Obj) (k : String) :
    olook (l₁ ++ l₂) k
      = match olook l₁ k with
        | some v => some v
        | none => olook l₂ k := by
  induction l₁ with
  | nil => simp [olook]
  | cons x xs ih =>
    by_cases hk : x.1 = k
    · simp [olook, hk]
    · simp [olook, hk, ih]

theorem olook_map_override (t s : Obj) (k : String) :
    olook (t.map fun kv =>
        match olook s kv.1 with
        | some v => (kv.1, v)
        | none => kv) k
      = match olook t k with
        | none => none
        | some v =>
          match olook s k with
          | some w => some w
          | none => some v := by
  induction t with
  | nil => simp [olook]
  | cons x xs ih =>
    by_cases hk : x.1 = k
    · subst hk
      cases hs : olook s x.1 <;>
        simp [olook, hs]
    · cases hs : olook s x.1 with
      | none =>
        simp only [List.map_cons, hs]
        simp only [olook, if_neg hk]
        exact ih
      | some v =>
        simp only [List.map_cons, hs]
        simp only [olook, hk, if_false]
        exact ih

theorem olook_filter_not_hOP (t s : Obj) (k : String) :
    olook (s.filter fun kv => !(hOP t kv.1)) k
      = if hOP t k then none else olook s k := by
  induction s with
  | nil => simp [olook]
  | cons x xs ih =>
    cases ht : hOP t x.1 with
    | true =>
      have hdrop : (!hOP t x.1) = false := by rw [ht]; rfl
      rw [List.filter_cons, hdrop]
      simp only [Bool.false_eq_true, if_false]
      rw [ih]
      by_cases hk : x.1 = k
      · subst hk
        rw [ht]
        simp
      · simp [olook, hk]
    | false =>
      have hkeep : (!hOP t x.1) = true := by rw [ht]; rfl
      rw [List.filter_cons, hkeep]
      simp only [if_true]
      by_cases hk : x.1 = k
      · subst hk
        simp [olook, ht]
      · simp only [olook, hk, if_false]
        exact ih

theorem olook_assign (t s : Obj) (k : String) :
    olook (assign t s) k
      = match olook s k with
        | some v => some v
        | none => olook t k := by
  unfold assign
  rw [olook_append, olook_map_override, olook_filter_not_hOP]
  cases ht : olook t k with
  | some v =>
    cases hs : olook s k <;> simp
  | none =>
    have hh : hOP t k = false := by simp [hOP, ht]
    cases hs : olook s k <;> simp [hh, hs]

theorem odataUrlFrom_congr (d₁ d₂ : Obj)
    (h : ∀ k ∈ odataKeys, olook d₁ k = olook d₂ k) :
    odataUrlFrom d₁ = odataUrlFrom d₂ := by
  have h1 := h "odata.type" (by simp [odataKeys])
  have h2 := h "odata.editLink" (by simp [odataKeys])
  have h3 := h "__metadata" (by simp [odataKeys])
  have h4 := h "odata.metadata" (by simp [odataKeys])
  simp only [odataUrlFrom, hOP, strField, metadataUri, h1, h2, h3, h4]

theorem hydrate_preserves_identity (factory : String → Obj) (d : Obj)
    (hfac : ∀ u k, k ∈ odataKeys → hOP (factory u) k = false) :
    ∀ k ∈ odataKeys, olook (hydrate factory d) k = olook d k := by
  intro k hk
  unfold hydrate
  rw [olook_assign]
  cases hd : olook d k with
  | some v => rfl
  | none =>
    have hfk := hfac (odataUrlFrom d) k hk
    unfold hOP at hfk
    cases ho : olook (factory (odataUrlFrom d)) k with
    | none => simp
    | some v => rw [ho] at hfk; cases hfk

theorem olook_of_mem_nodup (t : Obj) (kv : String × JVal)
    (hnd : (t.map Prod.fst).Nodup) (hm : kv ∈ t) :
    olook t kv.1 = some kv.2 := by
  induction t with
  | nil => cases hm
  | cons x xs ih =>
    rcases List.mem_cons.mp hm with rfl | hm2
    · simp [olook]
    · have hx1 : x.1 ∉ xs.map Prod.fst := by
        simpa using (List.nodup_cons.mp hnd).1
      have hne : x.1 ≠ kv.1 := by
        intro hcontra
        exact hx1 (hcontra ▸ List.mem_map_of_mem Prod.fst hm2)
      simp only [olook, if_neg hne]
      exact ih (List.nodup_cons.mp hnd).2 hm2

theorem hOP_of_mem (t : Obj) (kv : String × JVal) (hm : kv ∈ t) :
    hOP t kv.1 = true := by
  induction t with
  | nil => cases hm
  | cons x xs ih =>
    rcases List.mem_cons.mp hm with rfl | hm2
    · simp [hOP, olook]
    · by_cases hk : x.1 = kv.1
      · simp [hOP, olook, hk]
      · simp only [hOP, olook, hk, if_false]
        exact ih hm2

theorem assign_assign (t d : Obj) (hnd : (t.map Prod.fst).Nodup) :
    assign t (assign t d) = assign t d := by
  have hmap : (t.map fun kv =>
      match olook (assign t d) kv.1 with
      | some v => (kv.1, v)
      | none => kv)
      = t.map fun kv =>
      match olook d kv.1 with
      | some v => (kv.1, v)
      | none => kv := by
    apply List.map_congr_left
    intro kv hkv
    rw [olook_assign]
    cases hd : olook d kv.1 with
    | some v => simp
    | none =>
      simp only
      rw [olook_of_mem_nodup t kv hnd hkv]
  have hfil : ((assign t d).filter fun kv => !(hOP t kv.1))
      = d.filter fun kv => !(hOP t kv.1) := by
    unfold assign
    rw [List.filter_append]
    have hleft : ((t.map fun kv =>
        match olook d kv.1 with
        | some v => (kv.1, v)
        | none => kv).filter fun kv => !(hOP t kv.1)) = [] := by
      rw [List.filter_eq_nil_iff]
      intro a ha
      rcases List.mem_map.mp ha with ⟨kv, hkv, hEq⟩
      have hkey : a.1 = kv.1 := by
        cases hd : olook d kv.1 <;> rw [hd] at hEq <;> subst hEq <;> rfl
      have := hOP_of_mem t kv hkv
      simp [hkey, this]
    rw [hleft, List.nil_append, List.filter_filter]
    apply List.filter_congr
    intro a _
    cases h : hOP t a.1 <;> simp [h]
  show (t.map fun kv =>
      match olook (assign t d) kv.1 with
      | some v => (kv.1, v)
      | none => kv)
      ++ ((assign t d).filter fun kv => !(hOP t kv.1)) = assign t d
  rw [hmap, hfil]
  rfl

/-- C3: hydration is idempotent — for any entity factory whose constructed
node carries none of the OData identity keys as own properties (and has no
duplicate property keys), hydrating an already-hydrated payload recomputes
the same URL and returns the identical merged object, never a double-wrapped
one. -/
theorem hydrate_idempotent (factory : String → Obj) (d : Obj)
    (hfac : ∀ u k, k ∈ odataKeys → hOP (factory u) k = false)
    (hnd : ∀ u, ((factory u).map Prod.fst).Nodup) :
    odataUrlFrom (hydrate factory d) = odataUrlFrom d
  ∧ hydrate factory (hydrate factory d) = hydrate factory d := by
  have hurl : odataUrlFrom (hydrate factory d) = odataUrlFrom d :=
    odataUrlFrom_congr _ _ (hydrate_preserves_identity factory d hfac)
  refine ⟨hurl, ?_⟩
  show assign (factory (odataUrlFrom (hydrate factory d))) (hydrate factory d)
      = hydrate factory d
  rw [hurl]
  exact assign_assign _ _ (hnd _)

/-- C3 witness: idempotence evaluated on a concrete factory and payload. -/
theorem hydrate_idempotent_witness :
    (∀ u k, k ∈ odataKeys → hOP ((fun v => [("data", JVal.str v)]) u) k = false)
  ∧ hydrate (fun v => [("data", JVal.str v)])
      (hydrate (fun v => [("data", JVal.str v)]) [("odata.editLink", JVal.str "Web")])
      = hydrate (fun v => [("data", JVal.str v)]) [("odata.editLink", JVal.str "Web")] := by
  have hfac : ∀ u k, k ∈ odataKeys → hOP ((fun v => [("data", JVal.str v)]) u) k = false := by
    intro u k hk
    simp only [odataKeys, List.mem_cons, List.not_mem_nil, or_false] at hk
    rcases hk with rfl | rfl | rfl | rfl <;> rfl
  refine ⟨hfac, ?_⟩
  exact (hydrate_idempotent (fun v => [("data", JVal.str v)])
    [("odata.editLink", JVal.str "Web")] hfac (fun u => by simp)).2

/-- C2 counterexample: `odataUrlFrom` never consults `odata.id`; two payloads
that differ only in `odata.id` (and carry `odata.editLink` but no
`odata.metadata`) produce the same URL, and that URL is the relative
`_api/...` instead of an absolute one, so the claimed minimal convention
"odata.id plus odata.editLink" is not what the code implements. -/
theorem odataUrlFrom_ignores_odata_id :
    odataUrlFrom [("odata.id", JVal.str "https://tenant/sites/a/_api/Web/Lists(g1)"),
        ("odata.editLink", JVal.str "Web/Lists(g1)")]
      = odataUrlFrom [("odata.id", JVal.str "https://completely.different/_api/other"),
        ("odata.editLink", JVal.str "Web/Lists(g1)")]
  ∧ odataUrlFrom [("odata.id", JVal.str "https://tenant/sites/a/_api/Web/Lists(g1)"),
        ("odata.editLink", JVal.str "Web/Lists(g1)")]
      = "_api/Web/Lists(g1)" :=
  ⟨rfl, rfl⟩

/-- C2 (amended): for every non-`SP.Web` payload the parser recomputes one
canonical resource URL from the identity fields, handling three conventions:
minimal metadata combines the web url extracted from `odata.metadata` with
`_api` and `odata.editLink`; without `odata.metadata` the `odata.editLink`
alone yields the relative `_api/editLink`; verbose payloads use
`__metadata.uri` as-is (`odata.id` is never consulted); and the parser merges
the payload's properties onto the node built at that URL, the payload's
values taking precedence. -/
theorem odataUrlFrom_conventions (d : Obj)
    (hty : (hOP d "odata.type" && (strField d "odata.type" == "SP.Web")) = false) :
    (hOP d "odata.metadata" = true → hOP d "odata.editLink" = true →
      odataUrlFrom d
        = combine [extractWebUrl (strField d "odata.metadata"), "_api",
            strField d "odata.editLink"])
  ∧ (hOP d "odata.metadata" = false → hOP d "odata.editLink" = true →
      odataUrlFrom d = combine ["_api", strField d "odata.editLink"])
  ∧ (hOP d "odata.editLink" = false → hOP d "__metadata" = true →
      odataUrlFrom d = combine [metadataUri d])
  ∧ (∀ factory k v, olook d k = some v →
      olook (parseEntity factory d) k = some v) := by
  refine ⟨?_, ?_, ?_, ?_⟩
  · intro h1 h2
    simp [odataUrlFrom, hty, h1, h2]
  · intro h1 h2
    simp [odataUrlFrom, hty, h1, h2]
  · intro h1 h2
    simp [odataUrlFrom, hty, h1, h2]
  · intro factory k v hv
    unfold parseEntity
    rw [olook_assign, hv]

/-- C2 witness: the minimal-metadata convention evaluated on a concrete
payload. -/
theorem odataUrlFrom_conventions_witness :
    (hOP [("odata.metadata", JVal.str "https://tenant/sites/a/_api/$metadata#L"),
        ("odata.editLink", JVal.str "Web/Lists(g1)")] "odata.type"
      && (strField [("odata.metadata", JVal.str "https://tenant/sites/a/_api/$metadata#L"),
        ("odata.editLink", JVal.str "Web/Lists(g1)")] "odata.type" == "SP.Web")) = false
  ∧ odataUrlFrom [("odata.metadata", JVal.str "https://tenant/sites/a/_api/$metadata#L"),
        ("odata.editLink", JVal.str "Web/Lists(g1)")]
      = "https://tenant/sites/a/_api/Web/Lists(g1)" := by
  refine ⟨rfl, ?_⟩
  have h := (odataUrlFrom_conventions
    [("odata.metadata", JVal.str "https://tenant/sites/a/_api/$metadata#L"),
      ("odata.editLink", JVal.str "Web/Lists(g1)")] rfl).1 rfl rfl
  rw [h]
  rfl

/-- C4 counterexample: a payload with no usable OData identity fields does not
make node construction fail — `odataUrlFrom` returns `""` and `hydrate`
proceeds, returning a node built on the empty URL with the payload's
properties merged on, instead of throwing a `ConfigurationError` at
composition time. -/
theorem hydrate_accepts_missing_identity :
    odataUrlFrom ([] : Obj) = ""
  ∧ hydrate (fun u => [("data", JVal.obj [("url", JVal.str u)])])
        [("Title", JVal.str "T")]
      = [("data", JVal.obj [("url", JVal.str "")]), ("Title", JVal.str "T")] :=
  ⟨rfl, rfl⟩

/-- C4 (amended): when a payload exposes no usable OData identity fields,
`odataUrlFrom` returns the empty string (after logging a warning) and
hydration silently proceeds to construct the node from that empty URL —
deferring the failure to request time rather than failing fast. -/
theorem odataUrlFrom_defers_empty_url (d : Obj)
    (h1 : hOP d "odata.editLink" = false) (h2 : hOP d "__metadata" = false) :
    odataUrlFrom d = ""
  ∧ ∀ factory : String → Obj, hydrate factory d = assign (factory "") d := by
  have hurl : odataUrlFrom d = "" := by
    by_cases hty : (hOP d "odata.type" && (strField d "odata.type" == "SP.Web")) = true
    · simp [odataUrlFrom, hty, h1, h2]
    · have hty2 : (hOP d "odata.type" && (strField d "odata.type" == "SP.Web")) = false := by
        simpa using hty
      simp [odataUrlFrom, hty2, h1, h2]
  exact ⟨hurl, fun factory => by rw [hydrate, hurl]⟩

/-- C4 witness: the deferred-failure behaviour evaluated on a concrete
payload carrying only a `Title`. -/
theorem odataUrlFrom_defers_empty_url_witness :
    hOP [("Title", JVal.str "T")] "odata.editLink" = false
  ∧ hOP [("Title", JVal.str "T")] "__metadata" = false
  ∧ odataUrlFrom [("Title", JVal.str "T")] = "" :=
  ⟨rfl, rfl, (odataUrlFrom_defers_empty_url [("Title", JVal.str "T")] rfl rfl).1⟩

/-! ## Theorems: OData literal escaping (C5) -/

/-- C5 (code evaluated at the failing input): `SiteGroups.getByName` performs
no escaping at all — interpolating a group name that contains a single quote
yields a segment with three quote characters (an unbalanced OData string
literal, since an embedded quote would have to be doubled) and no percent
sign anywhere, so no percent-escaping took place.  The repository's own test
suite records the resulting request as failing (sitescripts.ts: "fails to
create a site script with a single-quote in the title argument", TODO #313
"supposed to succeed in the future"). -/
theorem getByName_interpolates_raw_quote :
    getByNamePath ("Test" ++ squo) = "getByName(" ++ squo ++ "Test" ++ squo ++ squo ++ ")"
  ∧ (getByNamePath ("Test" ++ squo)).toList.count quoteChar = 3
  ∧ (getByNamePath ("Test" ++ squo)).toList.count percentChar = 0 :=
  ⟨rfl, rfl, rfl⟩

/-! ## Theorems: queryable clone isolation (C6) -/

theorem lookup_map_set (q : List (String × String)) (k v : String)
    (hany : q.any (fun kv => kv.1 == k) = true) :
    (q.map fun kv => if kv.1 = k then (k, v) else kv).lookup k = some v := by
  induction q with
  | nil => cases hany
  | cons x xs ih =>
    by_cases hx : x.1 = k
    · rw [List.map_cons, if_pos hx]
      simp [List.lookup]
    · have hmem : xs.any (fun kv => kv.1 == k) = true := by
        rcases List.any_eq_true.mp hany with ⟨kv, hkv, hkvk⟩
        rcases List.mem_cons.mp hkv with rfl | hkv2
        · exact absurd (by simpa using hkvk) hx
        · exact List.any_eq_true.mpr ⟨kv, hkv2, hkvk⟩
      have hkx : (k == x.1) = false :=
        beq_eq_false_iff_ne.mpr fun hc => hx hc.symm
      rw [List.map_cons, if_neg hx]
      simp only [List.lookup, hkx]
      exact ih hmem

theorem lookup_append_single (q : List (String × String)) (k v : String)
    (hall : ∀ kv ∈ q, kv.1 ≠ k) :
    (q ++ [(k, v)]).lookup k = some v := by
  induction q with
  | nil => simp [List.lookup]
  | cons x xs ih =>
    have hx := hall x (List.mem_cons_self x xs)
    have hkx : (k == x.1) = false :=
      beq_eq_false_iff_ne.mpr fun hc => hx hc.symm
    simp only [List.cons_append, List.lookup, hkx]
    exact ih fun kv hkv => hall kv (List.mem_cons_of_mem x hkv)

theorem mapSet_lookup (q : List (String × String)) (k v : String) :
    (mapSet q k v).lookup k = some v := by
  unfold mapSet
  by_cases h : q.any (fun kv => kv.1 == k) = true
  · rw [if_pos h]
    exact lookup_map_set q k v h
  · rw [if_neg h]
    refine lookup_append_single q k v ?_
    intro kv hkv hc
    exact h (List.any_eq_true.mpr ⟨kv, hkv, by simpa using hc⟩)

/-- C6: cloning gives the child its own (shallow-copied) query map, so
setting a parameter such as `@v` on the clone — as `removeByLoginName` does
before dispatch — leaves the parent node's stored state (url, parentUrl and
query) completely unchanged, while the clone's own query map does receive the
parameter; a node never mutates an ancestor's state. -/
theorem clone_query_shallow_copy (store : List QNode) (parent : Nat)
    (h : parent < store.length) (seg k v : String) (inherit : Bool) :
    (setQueryParam (cloneNode store parent seg inherit).1
        (cloneNode store parent seg inherit).2 k v)[parent]?
      = store[parent]?
  ∧ (∃ c, (setQueryParam (cloneNode store parent seg inherit).1
        (cloneNode store parent seg inherit).2 k v)[(cloneNode store parent seg inherit).2]?
          = some c
      ∧ c.query.lookup k = some v) := by
  have hp : store[parent]? = some store[parent] := List.getElem?_eq_getElem h
  set p : QNode := store[parent] with hpdef
  set child : QNode := ⟨combine [p.url, seg], p.url, if inherit then p.query else []⟩
    with hchilddef
  have hclone : cloneNode store parent seg inherit = (store ++ [child], store.length) := by
    unfold cloneNode
    rw [List.get?_eq_getElem?, hp]
  have hchild : (store ++ [child])[store.length]? = some child :=
    List.getElem?_concat_length store child
  have hset : setQueryParam (store ++ [child]) store.length k v
      = (store ++ [child]).set store.length { child with query := mapSet child.query k v } := by
    unfold setQueryParam
    rw [List.get?_eq_getElem?, hchild]
  rw [hclone]
  simp only
  rw [hset]
  constructor
  · rw [List.getElem?_set_ne (by omega)]
    rw [List.getElem?_append_left h]
  · refine ⟨{ child with query := mapSet child.query k v }, ?_, mapSet_lookup _ _ _⟩
    exact List.getElem?_set_self (by simp)

/-- C6 witness: clone isolation evaluated on a one-node store. -/
theorem clone_query_shallow_copy_witness :
    0 < [(⟨"https://s/w", "", [("a", "1")]⟩ : QNode)].length
  ∧ (setQueryParam (cloneNode [(⟨"https://s/w", "", [("a", "1")]⟩ : QNode)] 0
        "removeByLoginName(@v)" true).1
      (cloneNode [(⟨"https://s/w", "", [("a", "1")]⟩ : QNode)] 0
        "removeByLoginName(@v)" true).2 "@v" "x")[0]?
      = [(⟨"https://s/w", "", [("a", "1")]⟩ : QNode)][0]? := by
  refine ⟨by decide, ?_⟩
  exact (clone_query_shallow_copy [(⟨"https://s/w", "", [("a", "1")]⟩ : QNode)] 0
    (by decide) "removeByLoginName(@v)" "@v" "x" true).1

/-! ## Theorems: batch consumed exactly once (C7) -/

/-- C7: a Batch is consumed exactly once — once `execute()` has succeeded on
a batch, both a further registration (`inBatch`) and a second `execute()` on
the spent batch fail loudly with `BatchStateError`; neither is silently
dropped or executed. -/
theorem batch_consumed_once {α : Type} (b bDone : Batch α) (r : α)
    (h : executeBatch b = Except.ok bDone) :
    inBatch bDone r = Except.error BatchError.batchStateError
  ∧ executeBatch bDone = Except.error BatchError.batchStateError := by
  unfold executeBatch at h
  by_cases hs : b.state = BatchState.Open
  · rw [if_pos hs] at h
    have hdone : bDone.state = BatchState.Completed := by
      cases h2 : bDone with
      | mk st reqs =>
        rw [h2] at h
        have := Except.ok.inj h
        have hst := congrArg Batch.state this
        simpa using hst.symm
    have hnotopen : ¬ bDone.state = BatchState.Open := by
      rw [hdone]; intro hc; cases hc
    constructor
    · unfold inBatch; rw [if_neg hnotopen]
    · unfold executeBatch; rw [if_neg hnotopen]
  · rw [if_neg hs] at h
    cases h

/-- C7 witness: the spent-batch errors evaluated on a concrete executed
batch. -/
theorem batch_consumed_once_witness :
    executeBatch (⟨BatchState.Open, [1, 2]⟩ : Batch Nat)
      = Except.ok (⟨BatchState.Completed, [1, 2]⟩ : Batch Nat)
  ∧ inBatch (⟨BatchState.Completed, [1, 2]⟩ : Batch Nat) 3
      = Except.error BatchError.batchStateError :=
  ⟨rfl,
    (batch_consumed_once (⟨BatchState.Open, [1, 2]⟩ : Batch Nat)
      (⟨BatchState.Completed, [1, 2]⟩ : Batch Nat) 3 rfl).1⟩

/-! ## Theorems: batch ordering (C1) -/

theorem settleAll_getElem (parsers : List (ρ → β)) (responses : List ρ) :
    ∀ (off j : Nat) (h1 : j < parsers.length) (h2 : j < responses.length),
      (settleAll off parsers responses)[j]?
        = some (.resolved (off + j) (parsers[j] responses[j])) := by
  induction parsers generalizing responses with
  | nil => intro off j h1 h2; cases h1
  | cons p ps ih =>
    intro off j h1 h2
    cases responses with
    | nil => cases h2
    | cons r rs =>
      cases j with
      | zero => simp [settleAll]
      | succ j2 =>
        have hj1 : j2 < ps.length := Nat.lt_of_succ_lt_succ h1
        have hj2 : j2 < rs.length := Nat.lt_of_succ_lt_succ h2
        have := ih rs (off + 1) j2 hj1 hj2
        simp only [settleAll, List.getElem?_cons_succ]
        rw [this]
        congr 2
        omega

theorem settleAll_length (parsers : List (ρ → β)) (responses : List ρ) :
    ∀ off, responses.length = parsers.length →
      (settleAll off parsers responses).length = parsers.length := by
  induction parsers generalizing responses with
  | nil => intro off hlen; simp [settleAll]
  | cons p ps ih =>
    intro off hlen
    cases responses with
    | nil => cases hlen
    | cons r rs =>
      simp only [settleAll, List.length_cons]
      rw [ih rs (off + 1) (by simpa using hlen)]

/-- C1 (spec-modelled batch coordinator): for any number of registered
requests, the execution trace settles the i-th registration's promise at
trace position i with its own parser applied to the positionally matched
response fragment — so registration i's callback never runs before
registration i-1's — and the batch's own completion callback occupies the
final position, after every member promise's callback. -/
theorem batch_execute_ordering (parsers : List (ρ → β)) (responses : List ρ)
    (hlen : responses.length = parsers.length) :
    (∀ j (h1 : j < parsers.length) (h2 : j < responses.length),
      (executeTrace parsers responses)[j]?
        = some (.resolved j (parsers[j] responses[j])))
  ∧ (executeTrace parsers responses)[parsers.length]? = some .completed
  ∧ (executeTrace parsers responses).length = parsers.length + 1 := by
  have hslen := settleAll_length parsers responses 0 hlen
  refine ⟨?_, ?_, ?_⟩
  · intro j h1 h2
    unfold executeTrace
    rw [List.getElem?_append_left (by omega)]
    have := settleAll_getElem parsers responses 0 j h1 h2
    simpa using this
  · unfold executeTrace
    rw [List.getElem?_append_right (by omega), hslen]
    simp
  · unfold executeTrace
    rw [List.length_append, hslen]
    rfl

/-- C1 witness: the ordering property evaluated on a concrete two-request
batch. -/
theorem batch_execute_ordering_witness :
    ([10, 20] : List Nat).length = ([fun r => r + 1, fun r => r * 2] : List (Nat → Nat)).length
  ∧ (executeTrace ([fun r => r + 1, fun r => r * 2] : List (Nat → Nat)) [10, 20])[
      ([fun r => r + 1, fun r => r * 2] : List (Nat → Nat)).length]?
      = some BatchEvent.completed :=
  ⟨rfl, (batch_execute_ordering [fun r => r + 1, fun r => r * 2] [10, 20] rfl).2.1⟩

end Pnp
